import Mathlib

/-!
Verification of the rank-fusion engine specification.

The repository ships the engine's contract (a binding test suite, plotting
helpers and data converters) but not the engine itself, so the definitions
below are modelled from the specification document: canonical scored lists,
normalization strategies, the nine fusion algorithms, the result assembler
and the explainability layer.  Scores are modelled as exact rationals
(the engine uses floating point; all claims under study concern finite
score values), identifiers as strings, and the real square root used by
z-score standardization is modelled by the rational approximation
`Rat.sqrt` (no claim under study depends on its exact value).
-/

namespace RankFusion

/-- Modelled from the spec: a `ScoredItem` is an identifier in canonical
string form paired with a score. -/
abbrev ScoredItem : Type := String × ℚ

/-- Modelled from the spec: the canonical list model resolves duplicate
identifiers within one list, first occurrence wins; `seen` accumulates the
identifiers already kept. -/
def canonAux (seen : List String) : List ScoredItem → List ScoredItem
  | [] => []
  | p :: t => if p.1 ∈ seen then canonAux seen t else p :: canonAux (p.1 :: seen) t

/-- Modelled from the spec: canonical form of one raw ranked list. -/
def canonList (l : List ScoredItem) : List ScoredItem := canonAux [] l

/-- Rank (0-based position of the first occurrence) and raw score of an
identifier in a list, `none` when the identifier is absent. -/
def lookupRank : List ScoredItem → String → Option (Nat × ℚ)
  | [], _ => Option.none
  | p :: t, d =>
      if p.1 = d then some (0, p.2)
      else (lookupRank t d).map (fun rs => (rs.1 + 1, rs.2))

/-- First-occurrence deduplication of a list of identifiers, skipping those
in `seen`. -/
def dedupKeys (seen : List String) : List String → List String
  | [] => []
  | i :: t => if i ∈ seen then dedupKeys seen t else i :: dedupKeys (i :: seen) t

/-- Union of the identifiers occurring across the given lists, in order of
first appearance, without duplicates. -/
def allKeys (ls : List (List ScoredItem)) : List String :=
  dedupKeys [] (ls.flatMap (fun l => l.map Prod.fst))

/-- Modelled from the spec: the result ordering used by the assembler —
descending fused score, ties broken by ascending identifier string. -/
def fuseRel (p q : ScoredItem) : Prop := q.2 < p.2 ∨ (p.2 = q.2 ∧ p.1 ≤ q.1)

instance : DecidableRel fuseRel := fun p q => by
  unfold fuseRel
  infer_instance

instance : IsTotal ScoredItem fuseRel := by
  constructor
  intro p q
  rcases lt_trichotomy p.2 q.2 with h | h | h
  · exact Or.inr (Or.inl h)
  · rcases le_total p.1 q.1 with h1 | h1
    · exact Or.inl (Or.inr ⟨h, h1⟩)
    · exact Or.inr (Or.inr ⟨h.symm, h1⟩)
  · exact Or.inl (Or.inl h)

instance : IsTrans ScoredItem fuseRel := by
  constructor
  intro p q r hpq hqr
  rcases hpq with h1 | ⟨h1, h1s⟩ <;> rcases hqr with h2 | ⟨h2, h2s⟩
  · exact Or.inl (h2.trans h1)
  · exact Or.inl (h2 ▸ h1)
  · exact Or.inl (h1 ▸ h2)
  · exact Or.inr ⟨h1.trans h2, h1s.trans h2s⟩

instance : IsAntisymm ScoredItem fuseRel := by
  constructor
  intro p q hpq hqp
  rcases hpq with h1 | ⟨h1, h1s⟩
  · rcases hqp with h2 | ⟨h2, h2s⟩
    · exact absurd h1 (lt_asymm h2)
    · exact absurd h1 (h2 ▸ lt_irrefl _)
  · rcases hqp with h2 | ⟨h2, h2s⟩
    · exact absurd h2 (h1 ▸ lt_irrefl _)
    · exact Prod.ext (le_antisymm h1s h2s) h1

/-- Modelled from the spec: the result assembler scores every identifier in
the union, sorts by descending fused score with identifier tie-break, and
truncates to `top_k` when requested. -/
def assemble (keys : List String) (score : String → ℚ) (topk : Option Nat) :
    List ScoredItem :=
  let sorted := List.insertionSort fuseRel (keys.map (fun i => (i, score i)))
  match topk with
  | Option.none => sorted
  | some n => sorted.take n

theorem assemble_some_eq_take (keys : List String) (score : String → ℚ) (n : Nat) :
    assemble keys score (some n) = (assemble keys score Option.none).take n := rfl

theorem map_fst_pairs (keys : List String) (score : String → ℚ) :
    (keys.map (fun i => (i, score i))).map Prod.fst = keys := by
  induction keys with
  | nil => rfl
  | cons h t ih => simp [ih]

theorem assemble_none_perm (keys : List String) (score : String → ℚ) :
    (assemble keys score Option.none).Perm (keys.map (fun i => (i, score i))) :=
  List.perm_insertionSort _ _

theorem assemble_subset {keys : List String} {score : String → ℚ}
    {topk : Option Nat} {p : ScoredItem} (hp : p ∈ assemble keys score topk) :
    p ∈ keys.map (fun i => (i, score i)) := by
  cases topk with
  | none => exact (assemble_none_perm keys score).mem_iff.mp hp
  | some n =>
      rw [assemble_some_eq_take] at hp
      exact (assemble_none_perm keys score).mem_iff.mp (List.take_subset n _ hp)

theorem mem_assemble {keys : List String} {score : String → ℚ}
    {topk : Option Nat} {p : ScoredItem} (hp : p ∈ assemble keys score topk) :
    p.1 ∈ keys ∧ p.2 = score p.1 := by
  rcases List.mem_map.mp (assemble_subset hp) with ⟨i, hi, hip⟩
  subst hip
  exact ⟨hi, rfl⟩

theorem assemble_length_le (keys : List String) (score : String → ℚ)
    (topk : Option Nat) : (assemble keys score topk).length ≤ keys.length := by
  have hn : (assemble keys score Option.none).length = keys.length := by
    have := (assemble_none_perm keys score).length_eq
    simpa using this
  cases topk with
  | none => exact le_of_eq hn
  | some n =>
      rw [assemble_some_eq_take]
      exact le_trans (List.Sublist.length_le (List.take_sublist n _)) (le_of_eq hn)

theorem assemble_length_le_topk (keys : List String) (score : String → ℚ)
    (n : Nat) : (assemble keys score (some n)).length ≤ n := by
  rw [assemble_some_eq_take]
  exact List.length_take_le n _

theorem assemble_sorted (keys : List String) (score : String → ℚ)
    (topk : Option Nat) : (assemble keys score topk).Pairwise fuseRel := by
  have hs : (assemble keys score Option.none).Pairwise fuseRel :=
    List.sorted_insertionSort fuseRel _
  cases topk with
  | none => exact hs
  | some n =>
      rw [assemble_some_eq_take]
      exact hs.sublist (List.take_sublist n _)

theorem assemble_fst_nodup {keys : List String} (hnd : keys.Nodup)
    (score : String → ℚ) (topk : Option Nat) :
    ((assemble keys score topk).map Prod.fst).Nodup := by
  have hmapnd : ((keys.map (fun i => (i, score i))).map Prod.fst).Nodup := by
    rw [map_fst_pairs]
    exact hnd
  have hperm : ((assemble keys score Option.none).map Prod.fst).Perm
      ((keys.map (fun i => (i, score i))).map Prod.fst) :=
    (assemble_none_perm keys score).map Prod.fst
  have hnone : ((assemble keys score Option.none).map Prod.fst).Nodup :=
    hperm.nodup_iff.mpr hmapnd
  cases topk with
  | none => exact hnone
  | some n =>
      rw [assemble_some_eq_take]
      exact hnone.sublist ((List.take_sublist n _).map Prod.fst)

theorem assemble_strict_sorted {keys : List String} (hnd : keys.Nodup)
    (score : String → ℚ) (topk : Option Nat) :
    (assemble keys score topk).Pairwise
      (fun p q => q.2 < p.2 ∨ (p.2 = q.2 ∧ p.1 < q.1)) := by
  have h1 := assemble_sorted keys score topk
  have h2 : (assemble keys score topk).Pairwise (fun p q : ScoredItem => p.1 ≠ q.1) :=
    List.pairwise_map.mp (List.Pairwise.imp (fun h => h) (assemble_fst_nodup hnd score topk))
  refine (h1.and h2).imp ?_
  rintro p q ⟨hr | ⟨he, hle⟩, hne⟩
  · exact Or.inl hr
  · exact Or.inr ⟨he, lt_of_le_of_ne hle hne⟩

theorem assemble_perm_keys {keys keys' : List String} (h : keys.Perm keys')
    (score : String → ℚ) (topk : Option Nat) :
    assemble keys score topk = assemble keys' score topk := by
  have hnone : assemble keys score Option.none = assemble keys' score Option.none := by
    refine List.eq_of_perm_of_sorted ?_ (assemble_sorted keys score Option.none)
      (assemble_sorted keys' score Option.none)
    exact ((assemble_none_perm keys score).trans (h.map _)).trans
      (assemble_none_perm keys' score).symm
  cases topk with
  | none => exact hnone
  | some n => rw [assemble_some_eq_take, assemble_some_eq_take, hnone]

theorem assemble_nil (score : String → ℚ) (topk : Option Nat) :
    assemble [] score topk = [] := by
  cases topk <;> simp [assemble, List.insertionSort]

theorem mem_dedupKeys {seen : List String} {l : List String} {i : String} :
    i ∈ dedupKeys seen l ↔ i ∈ l ∧ i ∉ seen := by
  induction l generalizing seen with
  | nil => simp [dedupKeys]
  | cons h t ih =>
      show i ∈ (if h ∈ seen then dedupKeys seen t else h :: dedupKeys (h :: seen) t) ↔ _
      by_cases hm : h ∈ seen
      · rw [if_pos hm, ih]
        simp only [List.mem_cons]
        constructor
        · rintro ⟨hi, hs⟩
          exact ⟨Or.inr hi, hs⟩
        · rintro ⟨rfl | hi, hs⟩
          · exact absurd hm hs
          · exact ⟨hi, hs⟩
      · rw [if_neg hm]
        simp only [List.mem_cons, ih]
        constructor
        · rintro (rfl | ⟨hi, hs⟩)
          · exact ⟨Or.inl rfl, hm⟩
          · exact ⟨Or.inr hi, fun hc => hs (Or.inr hc)⟩
        · rintro ⟨rfl | hi, hs⟩
          · exact Or.inl rfl
          · by_cases hih : i = h
            · exact Or.inl hih
            · refine Or.inr ⟨hi, ?_⟩
              simp only [List.mem_cons, not_or]
              exact ⟨hih, hs⟩

theorem nodup_dedupKeys (seen : List String) (l : List String) :
    (dedupKeys seen l).Nodup := by
  induction l generalizing seen with
  | nil => simp [dedupKeys]
  | cons h t ih =>
      show (if h ∈ seen then dedupKeys seen t else h :: dedupKeys (h :: seen) t).Nodup
      by_cases hm : h ∈ seen
      · rw [if_pos hm]
        exact ih seen
      · rw [if_neg hm]
        refine List.Nodup.cons ?_ (ih (h :: seen))
        intro hc
        exact (mem_dedupKeys.mp hc).2 (List.mem_cons_self h seen)

theorem mem_allKeys {ls : List (List ScoredItem)} {i : String} :
    i ∈ allKeys ls ↔ i ∈ ls.flatMap (fun l => l.map Prod.fst) := by
  unfold allKeys
  rw [mem_dedupKeys]
  simp

theorem nodup_allKeys (ls : List (List ScoredItem)) : (allKeys ls).Nodup :=
  nodup_dedupKeys [] _

theorem canonAux_eq_self {l : List ScoredItem} (hnd : (l.map Prod.fst).Nodup)
    {seen : List String} (hs : ∀ p ∈ l, p.1 ∉ seen) : canonAux seen l = l := by
  induction l generalizing seen with
  | nil => rfl
  | cons p t ih =>
      rw [List.map_cons, List.nodup_cons] at hnd
      show (if p.1 ∈ seen then canonAux seen t else p :: canonAux (p.1 :: seen) t) = _
      rw [if_neg (hs p (List.mem_cons_self p t))]
      congr 1
      refine ih hnd.2 ?_
      intro q hq
      simp only [List.mem_cons, not_or]
      refine ⟨?_, hs q (List.mem_cons_of_mem _ hq)⟩
      intro hc
      exact hnd.1 (hc ▸ List.mem_map_of_mem Prod.fst hq)

theorem canonList_eq_self {l : List ScoredItem} (hnd : (l.map Prod.fst).Nodup) :
    canonList l = l :=
  canonAux_eq_self hnd (by simp)

theorem lookupRank_isSome {l : List ScoredItem} {d : String} :
    (lookupRank l d).isSome = true ↔ d ∈ l.map Prod.fst := by
  induction l with
  | nil => simp [lookupRank]
  | cons p t ih =>
      show ((if p.1 = d then some (0, p.2)
        else (lookupRank t d).map (fun rs => (rs.1 + 1, rs.2))).isSome = true) ↔ _
      by_cases h : p.1 = d
      · simp [if_pos h, h]
      · rw [if_neg h, List.map_cons]
        have hmap : ((lookupRank t d).map (fun rs => (rs.1 + 1, rs.2))).isSome
            = (lookupRank t d).isSome := by
          cases lookupRank t d <;> rfl
        rw [hmap, ih, List.mem_cons]
        constructor
        · exact Or.inr
        · rintro (rfl | hm)
          · exact absurd rfl h
          · exact hm

theorem lookupRank_eq_none {l : List ScoredItem} {d : String}
    (h : d ∉ l.map Prod.fst) : lookupRank l d = Option.none := by
  cases hl : lookupRank l d with
  | none => rfl
  | some rs =>
      exact absurd (lookupRank_isSome.mp (by rw [hl]; rfl)) h

theorem lookupRank_fst_indexOf {l : List ScoredItem} {d : String} {r : Nat} {s : ℚ}
    (h : lookupRank l d = some (r, s)) : r = List.indexOf d (l.map Prod.fst) := by
  induction l generalizing r s with
  | nil => simp [lookupRank] at h
  | cons p t ih =>
      rw [show lookupRank (p :: t) d = (if p.1 = d then some (0, p.2)
        else (lookupRank t d).map (fun rs => (rs.1 + 1, rs.2))) from rfl] at h
      by_cases hpd : p.1 = d
      · rw [if_pos hpd] at h
        have : r = 0 := by
          cases h
          rfl
        subst this
        rw [List.map_cons, List.indexOf_cons,
          show (p.1 == d) = true from beq_iff_eq.mpr hpd]
        rfl
      · rw [if_neg hpd] at h
        cases hl : lookupRank t d with
        | none =>
            rw [hl] at h
            exact Option.noConfusion h
        | some rs =>
            rw [hl] at h
            injection h with h2
            have h1 : rs.1 + 1 = r := congrArg Prod.fst h2
            have h3 := ih hl
            rw [List.map_cons, List.indexOf_cons]
            have hbe : (p.1 == d) = false := by
              simp [hpd]
            rw [hbe]
            simp only [cond_false]
            rw [← h1, h3]

/-- Modelled from the spec: the closed family of normalization strategy names
(`none`, `minmax`, `zscore`, `sum`, `rank`). -/
inductive Norm where
  | none
  | minmax
  | zscore
  | sum
  | rank
deriving DecidableEq

/-- Arithmetic mean of a list of scores (0 for the empty list, since in the
rationals division by zero yields zero). -/
def meanOf (xs : List ℚ) : ℚ := xs.sum / xs.length

/-- Population variance of a list of scores. -/
def varOf (xs : List ℚ) : ℚ :=
  ((xs.map (fun x => (x - meanOf xs) ^ 2)).sum) / xs.length

/-- Modelled from the spec: the five normalization strategies.  `minmax`
rescales to the unit interval and maps constant lists to the midpoint 1/2;
`zscore` subtracts the mean and divides by the population standard deviation
(real square root modelled by `Rat.sqrt`), mapping zero-variance lists to 0;
`sum` divides by the score total, falling back to uniform weights when the
total is zero; `rank` replaces each score by `1/(position+1)`. -/
def normalizeScores : Norm → List ℚ → List ℚ
  | .none, xs => xs
  | .minmax, [] => []
  | .minmax, x :: xs =>
      let lo := xs.foldl min x
      let hi := xs.foldl max x
      if hi = lo then (x :: xs).map (fun _ => (1 : ℚ) / 2)
      else (x :: xs).map (fun y => (y - lo) / (hi - lo))
  | .zscore, xs =>
      if varOf xs = 0 then xs.map (fun _ => 0)
      else xs.map (fun y => (y - meanOf xs) / Rat.sqrt (varOf xs))
  | .sum, xs =>
      if xs.sum = 0 then xs.map (fun _ => 1 / (xs.length : ℚ))
      else xs.map (fun y => y / xs.sum)
  | .rank, xs => (List.range xs.length).map (fun i : ℕ => 1 / ((i : ℚ) + 1))

/-- Apply a normalization strategy to the scores of a canonical list,
keeping identifiers and positions. -/
def normList (n : Norm) (l : List ScoredItem) : List ScoredItem :=
  (l.map Prod.fst).zip (normalizeScores n (l.map Prod.snd))

/-- Modelled from the spec: per-list z-score standardization of one raw
score, used by DBSF and Standardized fusion; zero-variance lists
standardize to 0. -/
def zstdTerm (l : List ScoredItem) (s : ℚ) : ℚ :=
  let xs := l.map Prod.snd
  if varOf xs = 0 then 0 else (s - meanOf xs) / Rat.sqrt (varOf xs)

/-- Clip a value to the closed range from `lo` to `hi`. -/
def clipTo (lo hi z : ℚ) : ℚ := max lo (min hi z)

/-- Number of input lists containing the given identifier. -/
def hitCount (cls : List (List ScoredItem)) (d : String) : Nat :=
  cls.countP (fun l => (lookupRank l d).isSome)

/-- Sum, over the input lists containing the identifier, of a per-list term
computed from the containing list, the identifier's rank there and its raw
score; lists not containing the identifier contribute zero. -/
def termSum (f : List ScoredItem → Nat → ℚ → ℚ) (cls : List (List ScoredItem))
    (d : String) : ℚ :=
  (cls.map (fun l => match lookupRank l d with
    | some rs => f l rs.1 rs.2
    | Option.none => 0)).sum

theorem termSum_perm {cls cls' : List (List ScoredItem)} (h : cls.Perm cls')
    (f : List ScoredItem → Nat → ℚ → ℚ) (d : String) :
    termSum f cls d = termSum f cls' d :=
  List.Perm.sum_eq (h.map _)

theorem hitCount_perm {cls cls' : List (List ScoredItem)} (h : cls.Perm cls')
    (d : String) : hitCount cls d = hitCount cls' d :=
  h.countP_eq _

/-- Modelled from the spec: a Python floating-point parameter as validated by
the engine — either a finite value (modelled exactly as a rational) or one of
the non-finite values rejected by parameter validation. -/
inductive PyFloat where
  | finite (q : ℚ)
  | posInf
  | negInf
  | nan

/-- Whether a float parameter is finite. -/
def PyFloat.isFinite : PyFloat → Bool
  | .finite _ => true
  | _ => false

/-- The rational value of a finite float parameter (0 for non-finite ones,
which validation rejects before the value is ever used). -/
def PyFloat.val : PyFloat → ℚ
  | .finite q => q
  | _ => 0

/-- Modelled from the spec: the four algorithms wrapped by the
explainability layer, with their per-algorithm configuration. -/
inductive ExplainAlg where
  | rrf (k : Int)
  | combsum
  | combmnz
  | dbsf

/-- Modelled from the spec: the per-list term each explainable algorithm
contributes for one containing list — RRF adds `1/(k+rank)`, CombSUM the raw
score, CombMNZ the raw score times the item's hit count, DBSF the per-list
standardized score. -/
def exTermF : ExplainAlg → List (List ScoredItem) → String →
    List ScoredItem → Nat → ℚ → ℚ
  | .rrf k, _, _, _, r, _ => 1 / ((k : ℚ) + r)
  | .combsum, _, _, _, _, s => s
  | .combmnz, cls, d, _, _, s => s * (hitCount cls d : ℚ)
  | .dbsf, _, _, l, _, s => zstdTerm l s

/-- Fused score of one identifier under an explainable algorithm: the sum of
the per-list terms over the lists containing it. -/
def sumScore (a : ExplainAlg) (cls : List (List ScoredItem)) (d : String) : ℚ :=
  termSum (exTermF a cls d) cls d

/-- Modelled from the spec: the closed family of fusion algorithms, each
variant carrying exactly the configuration that algorithm needs. -/
inductive Alg where
  | rrf (k : Int)
  | isr (k : Int)
  | combsum
  | combmnz
  | borda
  | dbsf
  | standardized (lo hi : ℚ)
  | weighted (wa wb : PyFloat) (normalize : Bool)
  | additive (weights : List ℚ) (nrm : Norm)

/-- Sum of per-list weighted scores over (list, weight) pairs; lists not
containing the identifier contribute zero. -/
def weightedTermSum (pairs : List (List ScoredItem × ℚ)) (d : String) : ℚ :=
  (pairs.map (fun lw => match lookupRank lw.1 d with
    | some rs => lw.2 * rs.2
    | Option.none => 0)).sum

/-- Modelled from the spec: the fused score each algorithm assigns to one
identifier, given the canonical input lists.  RRF sums `1/(k+rank)`, ISR
`1/(k+rank)^2`, CombSUM the raw scores, CombMNZ the raw scores times the hit
count, Borda `list size - rank` votes, DBSF per-list standardized scores,
Standardized clipped z-scores, Weighted and Additive Multi-Task per-list
weighted (optionally normalized) scores. -/
def algScore : Alg → List (List ScoredItem) → String → ℚ
  | .rrf k, cls, d => sumScore (.rrf k) cls d
  | .isr k, cls, d => termSum (fun _ r _ => 1 / ((k : ℚ) + r) ^ 2) cls d
  | .combsum, cls, d => sumScore .combsum cls d
  | .combmnz, cls, d => sumScore .combmnz cls d
  | .borda, cls, d => termSum (fun l r _ => (l.length : ℚ) - r) cls d
  | .dbsf, cls, d => sumScore .dbsf cls d
  | .standardized lo hi, cls, d =>
      termSum (fun l _ s => clipTo lo hi (zstdTerm l s)) cls d
  | .weighted wa wb nrm, cls, d =>
      weightedTermSum ((if nrm then cls.map (normList .minmax) else cls).zip
        [wa.val, wb.val]) d
  | .additive ws nrm, cls, d =>
      weightedTermSum ((cls.map (normList nrm)).zip ws) d

/-- Modelled from the spec: parameter and input validation, returning a
descriptive message for the violated constraint, or nothing when the call is
valid.  RRF and ISR require `k >= 1`; Standardized requires a non-degenerate
clip range; Weighted requires finite weights, not both zero, and exactly two
lists; Additive Multi-Task requires one weight per input list. -/
def algValidate : Alg → List (List ScoredItem) → Option String
  | .rrf k, _ => if k < 1 then some "k must be >= 1" else Option.none
  | .isr k, _ => if k < 1 then some "k must be >= 1" else Option.none
  | .combsum, _ => Option.none
  | .combmnz, _ => Option.none
  | .borda, _ => Option.none
  | .dbsf, _ => Option.none
  | .standardized lo hi, _ =>
      if hi ≤ lo then some "clip range low must be less than high" else Option.none
  | .weighted wa wb _, ls =>
      if wa.isFinite && wb.isFinite then
        if wa.val = 0 ∧ wb.val = 0 then some "weights cannot both be zero"
        else if ls.length = 2 then Option.none
        else some "weighted fusion requires exactly two lists"
      else some "weights must be finite"
  | .additive ws _, ls =>
      if ws.length = ls.length then Option.none
      else some "weights length must match number of lists"

/-- Modelled from the spec: the common N-list fusion pipeline — validate the
configuration, canonicalize every input list, score the union of
identifiers, then assemble (sort descending with identifier tie-break and
truncate to `top_k`). -/
def fuseAlg (a : Alg) (lists : List (List ScoredItem)) (topk : Option Nat) :
    Except String (List ScoredItem) :=
  match algValidate a lists with
  | some msg => Except.error msg
  | Option.none =>
      Except.ok (assemble (allKeys (lists.map canonList))
        (algScore a (lists.map canonList)) topk)

/-- Modelled from the spec: two-list RRF entry point, a special case of the
N-list form. -/
def rrf (a b : List ScoredItem) (k : Int) (topk : Option Nat) :
    Except String (List ScoredItem) :=
  fuseAlg (.rrf k) [a, b] topk

/-- Modelled from the spec: N-list RRF entry point. -/
def rrf_multi (ls : List (List ScoredItem)) (k : Int) (topk : Option Nat) :
    Except String (List ScoredItem) :=
  fuseAlg (.rrf k) ls topk

/-- Modelled from the spec: two-list weighted linear combination entry
point. -/
def weighted (a b : List ScoredItem) (wa wb : PyFloat) (nrm : Bool)
    (topk : Option Nat) : Except String (List ScoredItem) :=
  fuseAlg (.weighted wa wb nrm) [a, b] topk

/-- Modelled from the spec: two-list additive multi-task entry point. -/
def additive_multi_task (a b : List ScoredItem) (ws : List ℚ) (nrm : Norm)
    (topk : Option Nat) : Except String (List ScoredItem) :=
  fuseAlg (.additive ws nrm) [a, b] topk

/-- Modelled from the spec: one entry of a fused item's explanation — the
contributing list's retriever id, the item's rank in that list, its raw
score there, and the numeric contribution that term made to the fused
score. -/
structure Contribution where
  retriever : String
  srcRank : Nat
  raw : ℚ
  contrib : ℚ

/-- Modelled from the spec: a fused item as returned by the explain
variants — identifier, fused score, rank in the fused output, and one
explanation entry per input list that contained the item. -/
structure FusedItemEx where
  id : String
  score : ℚ
  rank : Nat
  explanation : List Contribution

/-- Explanation entries for one identifier: one entry per input list
containing it (in list order); lists not containing the identifier are
omitted. -/
def explainContribs (a : ExplainAlg) (cls : List (List ScoredItem))
    (rids : List String) (d : String) : List Contribution :=
  (rids.zip cls).filterMap (fun rl => match lookupRank rl.2 d with
    | some rs => some ⟨rl.1, rs.1, rs.2, exTermF a cls d rl.2 rs.1 rs.2⟩
    | Option.none => Option.none)

/-- Check that the caller supplied exactly one retriever id per input
list. -/
def ridCheck (rids : List String) (lists : List (List ScoredItem)) :
    Option String :=
  if rids.length = lists.length then Option.none
  else some "retriever ids must match number of lists"

/-- Modelled from the spec: validation for the explain entry points — RRF's
`k >= 1` constraint plus one retriever id per input list. -/
def exValidate (a : ExplainAlg) (rids : List String)
    (lists : List (List ScoredItem)) : Option String :=
  match a with
  | .rrf k =>
      if k < 1 then some "k must be >= 1" else ridCheck rids lists
  | .combsum => ridCheck rids lists
  | .combmnz => ridCheck rids lists
  | .dbsf => ridCheck rids lists

/-- Modelled from the spec: the explainability entry point — same fusion
math and assembly as the plain algorithm, with each fused item additionally
carrying its rank in the output and its per-source explanation. -/
def explainFuse (a : ExplainAlg) (lists : List (List ScoredItem))
    (rids : List String) (topk : Option Nat) :
    Except String (List FusedItemEx) :=
  match exValidate a rids lists with
  | some msg => Except.error msg
  | Option.none =>
      let cls := lists.map canonList
      let base := assemble (allKeys cls) (sumScore a cls) topk
      Except.ok (base.enum.map (fun ip =>
        ⟨ip.2.1, ip.2.2, ip.1, explainContribs a cls rids ip.2.1⟩))

/-- Modelled from the spec: RRF explain entry point. -/
def rrf_explain (lists : List (List ScoredItem)) (rids : List String)
    (k : Int) (topk : Option Nat) : Except String (List FusedItemEx) :=
  explainFuse (.rrf k) lists rids topk

/-- Modelled from the spec: CombSUM explain entry point. -/
def combsum_explain (lists : List (List ScoredItem)) (rids : List String)
    (topk : Option Nat) : Except String (List FusedItemEx) :=
  explainFuse .combsum lists rids topk

/-- Modelled from the spec: CombMNZ explain entry point. -/
def combmnz_explain (lists : List (List ScoredItem)) (rids : List String)
    (topk : Option Nat) : Except String (List FusedItemEx) :=
  explainFuse .combmnz lists rids topk

/-- Modelled from the spec: DBSF explain entry point. -/
def dbsf_explain (lists : List (List ScoredItem)) (rids : List String)
    (topk : Option Nat) : Except String (List FusedItemEx) :=
  explainFuse .dbsf lists rids topk

theorem contribRows_sum (f : List ScoredItem → Nat → ℚ → ℚ) (d : String) :
    ∀ (rids : List String) (ls : List (List ScoredItem)),
    rids.length = ls.length →
    (((rids.zip ls).filterMap (fun rl => match lookupRank rl.2 d with
      | some rs => some (Contribution.mk rl.1 rs.1 rs.2 (f rl.2 rs.1 rs.2))
      | Option.none => Option.none)).map Contribution.contrib).sum
      = termSum f ls d := by
  intro rids ls
  induction ls generalizing rids with
  | nil =>
      intro hlen
      cases rids with
      | nil => rfl
      | cons x xs => exact absurd hlen (by simp)
  | cons l t ih =>
      intro hlen
      cases rids with
      | nil => exact absurd hlen (by simp)
      | cons x xs =>
          have hlen' : xs.length = t.length := by simpa using hlen
          show ((List.filterMap _ ((x, l) :: xs.zip t)).map _).sum = _
          rw [List.filterMap_cons]
          cases hl : lookupRank l d with
          | none =>
              rw [show termSum f (l :: t) d = 0 + termSum f t d by
                simp [termSum, hl]]
              rw [ih xs hlen', zero_add]
          | some rs =>
              rw [show termSum f (l :: t) d = f l rs.1 rs.2 + termSum f t d by
                simp [termSum, hl]]
              simp only [List.map_cons, List.sum_cons]
              rw [ih xs hlen']

theorem contribRows_length (f : List ScoredItem → Nat → ℚ → ℚ) (d : String) :
    ∀ (rids : List String) (ls : List (List ScoredItem)),
    rids.length = ls.length →
    ((rids.zip ls).filterMap (fun rl => match lookupRank rl.2 d with
      | some rs => some (Contribution.mk rl.1 rs.1 rs.2 (f rl.2 rs.1 rs.2))
      | Option.none => Option.none)).length
      = (ls.countP (fun l => (lookupRank l d).isSome)) := by
  intro rids ls
  induction ls generalizing rids with
  | nil =>
      intro hlen
      cases rids with
      | nil => rfl
      | cons x xs => exact absurd hlen (by simp)
  | cons l t ih =>
      intro hlen
      cases rids with
      | nil => exact absurd hlen (by simp)
      | cons x xs =>
          have hlen' : xs.length = t.length := by simpa using hlen
          show (List.filterMap _ ((x, l) :: xs.zip t)).length = _
          rw [List.filterMap_cons, List.countP_cons]
          cases hl : lookupRank l d with
          | none => simpa using ih xs hlen'
          | some rs => simpa using ih xs hlen'

theorem explainContribs_sum (a : ExplainAlg) {cls : List (List ScoredItem)}
    {rids : List String} (hlen : rids.length = cls.length) (d : String) :
    ((explainContribs a cls rids d).map Contribution.contrib).sum
      = sumScore a cls d :=
  contribRows_sum (exTermF a cls d) d rids cls hlen

theorem explainContribs_length (a : ExplainAlg) {cls : List (List ScoredItem)}
    {rids : List String} (hlen : rids.length = cls.length) (d : String) :
    (explainContribs a cls rids d).length = hitCount cls d :=
  contribRows_length (exTermF a cls d) d rids cls hlen

theorem fuseAlg_eq_ok {a : Alg} {ls : List (List ScoredItem)}
    {topk : Option Nat} {res : List ScoredItem}
    (h : fuseAlg a ls topk = Except.ok res) :
    algValidate a ls = Option.none ∧
    res = assemble (allKeys (ls.map canonList))
      (algScore a (ls.map canonList)) topk := by
  unfold fuseAlg at h
  cases hv : algValidate a ls with
  | some m =>
      rw [hv] at h
      exact Except.noConfusion h
  | none =>
      rw [hv] at h
      injection h with h2
      exact ⟨rfl, h2.symm⟩

theorem sumScore_perm {cls cls' : List (List ScoredItem)} (h : cls.Perm cls')
    (a : ExplainAlg) (d : String) : sumScore a cls d = sumScore a cls' d := by
  unfold sumScore
  have hf : exTermF a cls d = exTermF a cls' d := by
    cases a with
    | combmnz =>
        funext l r s
        simp [exTermF, hitCount_perm h]
    | rrf k => rfl
    | combsum => rfl
    | dbsf => rfl
  rw [hf]
  exact termSum_perm h _ d

theorem allKeys_perm {ls ls' : List (List ScoredItem)} (h : ls.Perm ls') :
    (allKeys ls).Perm (allKeys ls') := by
  refine (List.perm_ext_iff_of_nodup (nodup_allKeys ls) (nodup_allKeys ls')).mpr ?_
  intro a
  rw [mem_allKeys, mem_allKeys]
  constructor
  · intro hm
    rcases List.mem_flatMap.mp hm with ⟨l, hl, hal⟩
    exact List.mem_flatMap.mpr ⟨l, h.mem_iff.mp hl, hal⟩
  · intro hm
    rcases List.mem_flatMap.mp hm with ⟨l, hl, hal⟩
    exact List.mem_flatMap.mpr ⟨l, h.mem_iff.mpr hl, hal⟩

/-- Modelled from the spec: the fusion algorithms whose treatment of the
input lists is symmetric — every algorithm except the two whose
configuration assigns a distinct weight to each list position (Weighted and
Additive Multi-Task). -/
def Alg.symmetric : Alg → Prop
  | .weighted _ _ _ => False
  | .additive _ _ => False
  | _ => True

theorem algScore_perm {cls cls' : List (List ScoredItem)} (h : cls.Perm cls')
    {a : Alg} (hs : a.symmetric) (d : String) :
    algScore a cls d = algScore a cls' d := by
  cases a with
  | rrf k => exact sumScore_perm h _ d
  | isr k => exact termSum_perm h (fun _ r _ => 1 / ((k : ℚ) + r) ^ 2) d
  | combsum => exact sumScore_perm h _ d
  | combmnz => exact sumScore_perm h _ d
  | borda => exact termSum_perm h (fun l r _ => (l.length : ℚ) - r) d
  | dbsf => exact sumScore_perm h _ d
  | standardized lo hi =>
      exact termSum_perm h (fun l _ s => clipTo lo hi (zstdTerm l s)) d
  | weighted wa wb nrm => exact hs.elim
  | additive ws nrm => exact hs.elim

theorem algValidate_symmetric {ls ls' : List (List ScoredItem)}
    {a : Alg} (hs : a.symmetric) :
    algValidate a ls = algValidate a ls' := by
  cases a with
  | rrf k => rfl
  | isr k => rfl
  | combsum => rfl
  | combmnz => rfl
  | borda => rfl
  | dbsf => rfl
  | standardized lo hi => rfl
  | weighted wa wb nrm => exact hs.elim
  | additive ws nrm => exact hs.elim

theorem fuseAlg_perm {a : Alg} (hs : a.symmetric)
    {ls ls' : List (List ScoredItem)} (h : ls.Perm ls') (topk : Option Nat) :
    fuseAlg a ls topk = fuseAlg a ls' topk := by
  unfold fuseAlg
  rw [@algValidate_symmetric ls ls' a hs]
  cases algValidate a ls' with
  | some m => rfl
  | none =>
      have hc : (ls.map canonList).Perm (ls'.map canonList) := h.map canonList
      have hsc : algScore a (ls.map canonList) = algScore a (ls'.map canonList) :=
        funext (fun d => algScore_perm hc hs d)
      rw [hsc, assemble_perm_keys (allKeys_perm hc) _ topk]

theorem foldl_min_const {c : ℚ} : ∀ {xs : List ℚ}, (∀ y ∈ xs, y = c) →
    ∀ {x : ℚ}, x = c → xs.foldl min x = c := by
  intro xs
  induction xs with
  | nil =>
      intro _ x hx
      exact hx
  | cons y t ih =>
      intro h x hx
      have hy : y = c := h y (List.mem_cons_self y t)
      rw [List.foldl_cons]
      exact ih (fun z hz => h z (List.mem_cons_of_mem _ hz))
        (by rw [hx, hy, min_self])

theorem foldl_max_const {c : ℚ} : ∀ {xs : List ℚ}, (∀ y ∈ xs, y = c) →
    ∀ {x : ℚ}, x = c → xs.foldl max x = c := by
  intro xs
  induction xs with
  | nil =>
      intro _ x hx
      exact hx
  | cons y t ih =>
      intro h x hx
      have hy : y = c := h y (List.mem_cons_self y t)
      rw [List.foldl_cons]
      exact ih (fun z hz => h z (List.mem_cons_of_mem _ hz))
        (by rw [hx, hy, max_self])

theorem sum_const_list {c : ℚ} : ∀ {xs : List ℚ}, (∀ y ∈ xs, y = c) →
    xs.sum = c * xs.length := by
  intro xs
  induction xs with
  | nil => simp
  | cons y t ih =>
      intro h
      rw [List.sum_cons, ih (fun z hz => h z (List.mem_cons_of_mem _ hz)),
        h y (List.mem_cons_self y t), List.length_cons]
      push_cast
      ring

theorem meanOf_const {c : ℚ} {xs : List ℚ} (h : ∀ y ∈ xs, y = c)
    (hne : xs ≠ []) : meanOf xs = c := by
  unfold meanOf
  rw [sum_const_list h]
  have hlen : (xs.length : ℚ) ≠ 0 := by
    simpa using List.length_pos.mpr hne |>.ne'
  field_simp

theorem varOf_const {c : ℚ} {xs : List ℚ} (h : ∀ y ∈ xs, y = c) :
    varOf xs = 0 := by
  unfold varOf
  rcases hxs : xs with _ | ⟨y, t⟩
  · simp
  · rw [← hxs]
    have hne : xs ≠ [] := by
      rw [hxs]
      simp
    have hmean := meanOf_const h hne
    have hz : xs.map (fun x => (x - meanOf xs) ^ 2) = xs.map (fun _ => 0) := by
      apply List.map_congr_left
      intro y hy
      rw [hmean, h y hy]
      ring
    rw [hz]
    simp

/-- Stated from the spec sentence for the refinement check: the RRF fused
score of an identifier is the sum, over the input lists containing it, of
`1/(k + rank)`, rank being the identifier's 0-based position in that
list. -/
def specRrfScore (k : Int) (lists : List (List ScoredItem)) (d : String) : ℚ :=
  ((lists.filter (fun l => decide (d ∈ l.map Prod.fst))).map
    (fun l => 1 / ((k : ℚ) + (List.indexOf d (l.map Prod.fst))))).sum

theorem rrfTermSum_eq_spec (k : Int) (lists : List (List ScoredItem))
    (d : String) :
    termSum (fun _ r _ => 1 / ((k : ℚ) + r)) lists d = specRrfScore k lists d := by
  induction lists with
  | nil => rfl
  | cons l t ih =>
      unfold termSum specRrfScore
      unfold termSum specRrfScore at ih
      rw [List.map_cons, List.sum_cons, List.filter_cons]
      by_cases hm : d ∈ l.map Prod.fst
      · have hsome : (lookupRank l d).isSome := lookupRank_isSome.mpr hm
        obtain ⟨rs, hrs⟩ := Option.isSome_iff_exists.mp hsome
        rw [hrs, if_pos (by simpa using hm), List.map_cons, List.sum_cons, ih]
        congr 2
        show (1 : ℚ) / ((k : ℚ) + (rs.1 : ℚ)) = _
        rw [lookupRank_fst_indexOf hrs]
      · rw [lookupRank_eq_none hm, if_neg (by simpa using hm)]
        simpa using ih

/-- The two ranked lists of the spec's worked RRF example. -/
def exampleA : List ScoredItem := [("d1", (25 : ℚ)/2), ("d2", 11), ("d3", 9)]

/-- The second ranked list of the spec's worked RRF example. -/
def exampleB : List ScoredItem :=
  [("d2", (9 : ℚ)/10), ("d3", (4 : ℚ)/5), ("d1", (7 : ℚ)/10)]

theorem mem_canonAux_fst {l : List ScoredItem} {d : String} :
    ∀ {seen : List String},
    (d ∈ (canonAux seen l).map Prod.fst ↔ d ∈ l.map Prod.fst ∧ d ∉ seen) := by
  induction l with
  | nil => simp [canonAux]
  | cons p t ih =>
      intro seen
      show d ∈ ((if p.1 ∈ seen then canonAux seen t
        else p :: canonAux (p.1 :: seen) t).map Prod.fst) ↔ _
      by_cases hm : p.1 ∈ seen
      · rw [if_pos hm, ih]
        simp only [List.map_cons, List.mem_cons]
        constructor
        · rintro ⟨hi, hs⟩
          exact ⟨Or.inr hi, hs⟩
        · rintro ⟨rfl | hi, hs⟩
          · exact absurd hm hs
          · exact ⟨hi, hs⟩
      · rw [if_neg hm]
        simp only [List.map_cons, List.mem_cons, ih]
        constructor
        · rintro (rfl | ⟨hi, hs⟩)
          · exact ⟨Or.inl rfl, hm⟩
          · exact ⟨Or.inr hi, fun hc => hs (Or.inr hc)⟩
        · rintro ⟨rfl | hi, hs⟩
          · exact Or.inl rfl
          · by_cases hih : d = p.1
            · exact Or.inl hih
            · refine Or.inr ⟨hi, ?_⟩
              simp only [List.mem_cons, not_or]
              exact ⟨hih, hs⟩

theorem mem_canonList_fst {l : List ScoredItem} {d : String} :
    d ∈ (canonList l).map Prod.fst ↔ d ∈ l.map Prod.fst := by
  unfold canonList
  rw [mem_canonAux_fst]
  simp

theorem ridCheck_none_len {rids : List String} {lists : List (List ScoredItem)}
    (h : ridCheck rids lists = Option.none) : rids.length = lists.length := by
  unfold ridCheck at h
  by_cases hl : rids.length = lists.length
  · exact hl
  · rw [if_neg hl] at h
    exact Option.noConfusion h

theorem exValidate_none_len {a : ExplainAlg} {rids : List String}
    {lists : List (List ScoredItem)} (h : exValidate a rids lists = Option.none) :
    rids.length = lists.length := by
  cases a with
  | rrf k =>
      replace h : (if k < 1 then some "k must be >= 1"
          else ridCheck rids lists) = Option.none := h
      by_cases hk : k < 1
      · rw [if_pos hk] at h
        exact Option.noConfusion h
      · rw [if_neg hk] at h
        exact ridCheck_none_len h
  | combsum => exact ridCheck_none_len h
  | combmnz => exact ridCheck_none_len h
  | dbsf => exact ridCheck_none_len h

/-- C8: `rrf` (and its N-list form `rrf_multi`) raises a validation error
whose message states the constraint `k must be >= 1` whenever called with
`k = 0` (or any `k < 1`), and produces no fused result in that case. -/
theorem rrf_k_validation : ∀ (k : Int), k < 1 →
    (∀ (a b : List ScoredItem) (topk : Option Nat),
      rrf a b k topk = Except.error "k must be >= 1") ∧
    (∀ (ls : List (List ScoredItem)) (topk : Option Nat),
      rrf_multi ls k topk = Except.error "k must be >= 1") := by
  intro k hk
  constructor
  · intro a b topk
    unfold rrf fuseAlg
    rw [show algValidate (Alg.rrf k) [a, b] = some "k must be >= 1" from by
      rw [show algValidate (Alg.rrf k) [a, b]
        = (if k < 1 then some "k must be >= 1" else Option.none) from rfl,
        if_pos hk]]
  · intro ls topk
    unfold rrf_multi fuseAlg
    rw [show algValidate (Alg.rrf k) ls = some "k must be >= 1" from by
      rw [show algValidate (Alg.rrf k) ls
        = (if k < 1 then some "k must be >= 1" else Option.none) from rfl,
        if_pos hk]]

/-- Witness for C8 at the concrete input `k = 0`. -/
theorem rrf_k_validation_witness :
    rrf [] [] 0 Option.none = Except.error "k must be >= 1" ∧
    rrf_multi [] 0 Option.none = Except.error "k must be >= 1" :=
  ⟨(rrf_k_validation 0 (by norm_num)).1 [] [] Option.none,
   (rrf_k_validation 0 (by norm_num)).2 [] Option.none⟩

/-- C9: for every fusion algorithm, fusing empty input lists succeeds with
an empty result rather than raising an input-validation error; in
particular `rrf` on two empty lists and `rrf_multi` on zero lists both
return the empty list. -/
theorem empty_lists_empty_result :
    (∀ (a : Alg) (topk : Option Nat), algValidate a [[], []] = Option.none →
      fuseAlg a [[], []] topk = Except.ok []) ∧
    (∀ (a : Alg) (topk : Option Nat), algValidate a [] = Option.none →
      fuseAlg a [] topk = Except.ok []) ∧
    (∀ topk : Option Nat, rrf [] [] 60 topk = Except.ok []) ∧
    (∀ topk : Option Nat, rrf_multi [] 60 topk = Except.ok []) := by
  have hv60a : algValidate (Alg.rrf 60) [[], []] = Option.none := by
    rw [show algValidate (Alg.rrf 60) [[], []]
      = (if (60 : Int) < 1 then some "k must be >= 1" else Option.none) from rfl,
      if_neg (by norm_num)]
  have hv60b : algValidate (Alg.rrf 60) [] = Option.none := by
    rw [show algValidate (Alg.rrf 60) []
      = (if (60 : Int) < 1 then some "k must be >= 1" else Option.none) from rfl,
      if_neg (by norm_num)]
  refine ⟨?_, ?_, ?_, ?_⟩
  · intro a topk hv
    unfold fuseAlg
    rw [hv, show allKeys ([[], []].map canonList) = [] from rfl, assemble_nil]
  · intro a topk hv
    unfold fuseAlg
    rw [hv, show allKeys (([] : List (List ScoredItem)).map canonList) = []
      from rfl, assemble_nil]
  · intro topk
    unfold rrf fuseAlg
    rw [hv60a, show allKeys ([[], []].map canonList) = [] from rfl, assemble_nil]
  · intro topk
    unfold rrf_multi fuseAlg
    rw [hv60b, show allKeys (([] : List (List ScoredItem)).map canonList) = []
      from rfl, assemble_nil]

/-- Witness for C9 at the concrete algorithm CombSUM. -/
theorem empty_lists_empty_result_witness :
    fuseAlg Alg.combsum [[], []] Option.none = Except.ok [] :=
  empty_lists_empty_result.1 Alg.combsum Option.none rfl

/-- C3: for every fusion algorithm and every valid input, the fused result
is sorted by strictly descending fused score, any two items with equal
fused scores appearing in ascending lexical order of their identifier
strings; the model is a pure function of its inputs, so identical inputs
and configuration always produce this same ordering. -/
theorem fused_result_sorted :
    ∀ (a : Alg) (ls : List (List ScoredItem)) (topk : Option Nat)
      (res : List ScoredItem), fuseAlg a ls topk = Except.ok res →
      res.Pairwise (fun p q => q.2 < p.2 ∨ (p.2 = q.2 ∧ p.1 < q.1)) := by
  intro a ls topk res h
  obtain ⟨hv, hres⟩ := fuseAlg_eq_ok h
  subst hres
  exact assemble_strict_sorted (nodup_allKeys _) _ topk

/-- Witness for C3 on a concrete CombSUM fusion. -/
theorem fused_result_sorted_witness :
    ([(("a" : String), (2 : ℚ)), (("b" : String), (1 : ℚ))] :
        List ScoredItem).Pairwise
      (fun p q => q.2 < p.2 ∨ (p.2 = q.2 ∧ p.1 < q.1)) := by
  refine fused_result_sorted Alg.combsum [[("a", 2), ("b", 1)]]
    Option.none _ ?_
  simp only [fuseAlg, algValidate, algScore, sumScore, termSum, exTermF,
    allKeys, canonList, canonAux, dedupKeys, assemble, lookupRank, fuseRel,
    List.insertionSort, List.orderedInsert, List.flatMap, List.map,
    List.filterMap]
  simp

/-- C4 counterexample: Additive Multi-Task fusion is an N-list algorithm
(its configuration carries one weight per list), yet permuting the input
lists while the configuration stays fixed changes the fused result. -/
theorem list_order_counterexample :
    fuseAlg (Alg.additive [1, 2] Norm.none)
        [[(("a" : String), (1 : ℚ))], [("b", 1)]] Option.none
      ≠ fuseAlg (Alg.additive [1, 2] Norm.none)
        [[(("b" : String), (1 : ℚ))], [("a", 1)]] Option.none := by
  have h1 : fuseAlg (Alg.additive [1, 2] Norm.none)
      [[(("a" : String), (1 : ℚ))], [("b", 1)]] Option.none
      = Except.ok [(("b" : String), (2 : ℚ)), ("a", 1)] := by
    simp only [fuseAlg, algValidate, algScore, weightedTermSum, normList,
      normalizeScores, allKeys, canonList, canonAux, dedupKeys, assemble,
      lookupRank, fuseRel, List.insertionSort, List.orderedInsert,
      List.flatMap, List.map, List.filterMap, List.zip]
    simp
  have h2 : fuseAlg (Alg.additive [1, 2] Norm.none)
      [[(("b" : String), (1 : ℚ))], [("a", 1)]] Option.none
      = Except.ok [(("a" : String), (2 : ℚ)), ("b", 1)] := by
    simp only [fuseAlg, algValidate, algScore, weightedTermSum, normList,
      normalizeScores, allKeys, canonList, canonAux, dedupKeys, assemble,
      lookupRank, fuseRel, List.insertionSort, List.orderedInsert,
      List.flatMap, List.map, List.filterMap, List.zip]
    simp
  rw [h1, h2]
  simp

/-- C4 (amended): permuting the order of the input lists never changes the
fused result for the N-list algorithms whose configuration is symmetric in
the lists (RRF, ISR, CombSUM, CombMNZ, Borda, DBSF, Standardized); the two
algorithms that assign a distinct weight to each list position (Weighted,
Additive Multi-Task) are excluded, as the counterexample forces. -/
theorem n_list_order_invariance :
    ∀ (a : Alg), a.symmetric →
    ∀ (ls ls' : List (List ScoredItem)) (topk : Option Nat), ls.Perm ls' →
    fuseAlg a ls topk = fuseAlg a ls' topk :=
  fun _ hs _ _ topk h => fuseAlg_perm hs h topk

/-- Witness for C4 (amended) on a concrete RRF swap of two lists. -/
theorem n_list_order_invariance_witness :
    fuseAlg (Alg.rrf 60) [[(("a" : String), (1 : ℚ))], [("b", 2)]] Option.none
      = fuseAlg (Alg.rrf 60) [[(("b" : String), (2 : ℚ))], [("a", 1)]]
        Option.none :=
  n_list_order_invariance (Alg.rrf 60) trivial _ _ Option.none
    (List.Perm.swap _ _ _)

/-- C2: for every fusion algorithm and valid input, the fused result's
length is at most the number of distinct identifiers across all input
lists and at most `top_k` when supplied; and supplying `top_k` only
truncates the final sorted sequence — it never changes retained scores or
their relative order, because fusion with `top_k` equals fusion without it
followed by `take`. -/
theorem output_length_bounds_and_topk_truncation :
    (∀ (a : Alg) (ls : List (List ScoredItem)) (topk : Option Nat)
      (res : List ScoredItem), fuseAlg a ls topk = Except.ok res →
      res.length ≤ (ls.flatMap (fun l => l.map Prod.fst)).toFinset.card ∧
      (∀ n, topk = some n → res.length ≤ n)) ∧
    (∀ (a : Alg) (ls : List (List ScoredItem)) (n : Nat),
      fuseAlg a ls (some n) = (fuseAlg a ls Option.none).map
        (fun r => r.take n)) := by
  constructor
  · intro a ls topk res h
    obtain ⟨hv, hres⟩ := fuseAlg_eq_ok h
    subst hres
    constructor
    · refine le_trans (assemble_length_le (allKeys (ls.map canonList)) _ topk) ?_
      have hnd := nodup_allKeys (ls.map canonList)
      rw [← List.toFinset_card_of_nodup hnd]
      apply Finset.card_le_card
      intro i hi
      rw [List.mem_toFinset] at hi ⊢
      rw [mem_allKeys] at hi
      rcases List.mem_flatMap.mp hi with ⟨cl, hcl, hicl⟩
      rcases List.mem_map.mp hcl with ⟨l, hl, rfl⟩
      exact List.mem_flatMap.mpr ⟨l, hl, mem_canonList_fst.mp hicl⟩
    · intro n hn
      subst hn
      exact assemble_length_le_topk _ _ n
  · intro a ls n
    unfold fuseAlg
    cases algValidate a ls with
    | some m => rfl
    | none =>
        rw [assemble_some_eq_take]
        rfl

/-- Witness for C2 on a concrete CombSUM fusion with `top_k = 1`. -/
theorem output_length_bounds_witness :
    ([(("a" : String), (1 : ℚ))] : List ScoredItem).length ≤
      (([[("a", (1 : ℚ))], []] : List (List ScoredItem)).flatMap
        (fun l => l.map Prod.fst)).toFinset.card ∧
    ([(("a" : String), (1 : ℚ))] : List ScoredItem).length ≤ 1 := by
  have h := output_length_bounds_and_topk_truncation.1 Alg.combsum
    [[("a", 1)], []] (some 1) [("a", 1)] ?_
  · exact ⟨h.1, h.2 1 rfl⟩
  · simp only [fuseAlg, algValidate, algScore, sumScore, termSum, exTermF,
      allKeys, canonList, canonAux, dedupKeys, assemble, lookupRank, fuseRel,
      List.insertionSort, List.orderedInsert, List.flatMap, List.map,
      List.filterMap]
    simp

/-- C7: `weighted` fails with an error whose message mentions the weights
being both zero whenever both weights are 0.0, and with an error whose
message mentions non-finite weights whenever either weight is non-finite;
in both cases no fused result is produced. -/
theorem weighted_invalid_weights_error :
    ∀ (wa wb : PyFloat) (nrm : Bool) (ls : List (List ScoredItem))
      (topk : Option Nat),
      ((wa.isFinite = false ∨ wb.isFinite = false) →
        fuseAlg (Alg.weighted wa wb nrm) ls topk
          = Except.error "weights must be finite") ∧
      (wa = PyFloat.finite 0 → wb = PyFloat.finite 0 →
        fuseAlg (Alg.weighted wa wb nrm) ls topk
          = Except.error "weights cannot both be zero") := by
  intro wa wb nrm ls topk
  have heq : algValidate (Alg.weighted wa wb nrm) ls
      = (if (wa.isFinite && wb.isFinite) = true then
          if wa.val = 0 ∧ wb.val = 0 then some "weights cannot both be zero"
          else if ls.length = 2 then Option.none
          else some "weighted fusion requires exactly two lists"
        else some "weights must be finite") := rfl
  constructor
  · intro hnf
    unfold fuseAlg
    rw [show algValidate (Alg.weighted wa wb nrm) ls
        = some "weights must be finite" from by
      rw [heq, if_neg ?_]
      rcases hnf with h | h <;> simp [h]]
  · rintro rfl rfl
    unfold fuseAlg
    rw [show algValidate (Alg.weighted (PyFloat.finite 0) (PyFloat.finite 0) nrm) ls
        = some "weights cannot both be zero" from by
      rw [heq, if_pos (show (((PyFloat.finite 0).isFinite &&
          (PyFloat.finite 0).isFinite) = true) from rfl),
        if_pos ⟨rfl, rfl⟩]]

/-- Witness for C7 at the concrete weights `inf` and `0.0, 0.0`. -/
theorem weighted_invalid_weights_error_witness :
    fuseAlg (Alg.weighted PyFloat.posInf (PyFloat.finite (1/2)) true) []
      Option.none = Except.error "weights must be finite" ∧
    fuseAlg (Alg.weighted (PyFloat.finite 0) (PyFloat.finite 0) true) []
      Option.none = Except.error "weights cannot both be zero" :=
  ⟨(weighted_invalid_weights_error PyFloat.posInf (PyFloat.finite (1/2))
      true [] Option.none).1 (Or.inl rfl),
   (weighted_invalid_weights_error (PyFloat.finite 0) (PyFloat.finite 0)
      true [] Option.none).2 rfl rfl⟩

/-- C10: for `rrf` with a valid `k` and no `top_k`, the fused result
contains exactly the union of the input identifiers — an identifier
appearing in only one list still appears — so whenever at least one input
list is non-empty the fused result is non-empty. -/
theorem rrf_union_nonempty :
    ∀ (k : Int) (a b : List ScoredItem), 1 ≤ k →
    ∃ res, rrf a b k Option.none = Except.ok res ∧
      (∀ d, d ∈ res.map Prod.fst ↔
        (d ∈ a.map Prod.fst ∨ d ∈ b.map Prod.fst)) ∧
      ((a ≠ [] ∨ b ≠ []) → res ≠ []) := by
  intro k a b hk
  have hv : algValidate (Alg.rrf k) [a, b] = Option.none := by
    rw [show algValidate (Alg.rrf k) [a, b]
      = (if k < 1 then some "k must be >= 1" else Option.none) from rfl,
      if_neg (by omega)]
  have hperm : ((assemble (allKeys ([a, b].map canonList))
      (algScore (Alg.rrf k) ([a, b].map canonList)) Option.none).map
        Prod.fst).Perm (allKeys ([a, b].map canonList)) := by
    have h := (assemble_none_perm (allKeys ([a, b].map canonList))
      (algScore (Alg.rrf k) ([a, b].map canonList))).map Prod.fst
    rwa [map_fst_pairs] at h
  have hmem : ∀ d, d ∈ (assemble (allKeys ([a, b].map canonList))
      (algScore (Alg.rrf k) ([a, b].map canonList)) Option.none).map Prod.fst
      ↔ (d ∈ a.map Prod.fst ∨ d ∈ b.map Prod.fst) := by
    intro d
    rw [hperm.mem_iff, mem_allKeys]
    constructor
    · intro h
      rcases List.mem_flatMap.mp h with ⟨cl, hcl, hdl⟩
      rcases List.mem_cons.mp hcl with rfl | hcl2
      · exact Or.inl (mem_canonList_fst.mp hdl)
      · rcases List.mem_cons.mp hcl2 with rfl | hcl3
        · exact Or.inr (mem_canonList_fst.mp hdl)
        · exact absurd hcl3 (List.not_mem_nil cl)
    · rintro (h | h)
      · exact List.mem_flatMap.mpr ⟨canonList a, by simp, mem_canonList_fst.mpr h⟩
      · exact List.mem_flatMap.mpr ⟨canonList b, by simp, mem_canonList_fst.mpr h⟩
  refine ⟨_, ?_, hmem, ?_⟩
  · unfold rrf fuseAlg
    rw [hv]
  · intro hne hcon
    have hempty : ∀ d, (d ∈ a.map Prod.fst ∨ d ∈ b.map Prod.fst) → False := by
      intro d hd
      have hin := (hmem d).mpr hd
      rw [hcon] at hin
      simp at hin
    rcases hne with ha | hb
    · rcases a with _ | ⟨p, t⟩
      · exact ha rfl
      · exact hempty p.1 (Or.inl (by simp))
    · rcases b with _ | ⟨p, t⟩
      · exact hb rfl
      · exact hempty p.1 (Or.inr (by simp))

/-- Witness for C10 on two disjoint single-item lists. -/
theorem rrf_union_nonempty_witness :
    ∃ res, rrf [(("doc_A" : String), (1 : ℚ))]
      [(("doc_B" : String), (9 : ℚ)/10)] 60 Option.none = Except.ok res ∧
      res ≠ [] := by
  obtain ⟨res, hok, hmem, hne⟩ := rrf_union_nonempty 60
    [("doc_A", 1)] [("doc_B", 9/10)] (by norm_num)
  exact ⟨res, hok, hne (Or.inl (by simp))⟩

/-- C6: every normalization strategy is total on lists of finite scores in
the exact-rational model — it always returns a list of the same length,
including on empty, single-element and constant-score lists; `minmax` maps
every score of a constant-score (hence also single-element) list to the
fixed midpoint 1/2, `zscore` maps every score of a zero-variance list to
0 (and constant lists have zero variance), and `sum` falls back to uniform
weighting when the list's score total is zero. -/
theorem normalization_total_and_degenerate :
    (∀ (n : Norm) (xs : List ℚ), (normalizeScores n xs).length = xs.length) ∧
    (∀ (xs : List ℚ) (c : ℚ), (∀ y ∈ xs, y = c) →
      normalizeScores Norm.minmax xs = xs.map (fun _ => (1 : ℚ)/2)) ∧
    (∀ (xs : List ℚ) (c : ℚ), (∀ y ∈ xs, y = c) →
      varOf xs = 0 ∧
      normalizeScores Norm.zscore xs = xs.map (fun _ => (0 : ℚ))) ∧
    (∀ xs : List ℚ, xs.sum = 0 →
      normalizeScores Norm.sum xs = xs.map (fun _ => 1 / (xs.length : ℚ))) := by
  refine ⟨?_, ?_, ?_, ?_⟩
  · intro n xs
    cases n with
    | none => rfl
    | minmax =>
        cases xs with
        | nil => rfl
        | cons x t =>
            show (if t.foldl max x = t.foldl min x
              then (x :: t).map (fun _ => (1 : ℚ)/2)
              else (x :: t).map (fun y =>
                (y - t.foldl min x) / (t.foldl max x - t.foldl min x))).length = _
            by_cases h : t.foldl max x = t.foldl min x
            · rw [if_pos h, List.length_map]
            · rw [if_neg h, List.length_map]
    | zscore =>
        show (if varOf xs = 0 then xs.map (fun _ => 0)
          else xs.map (fun y => (y - meanOf xs) / Rat.sqrt (varOf xs))).length = _
        by_cases h : varOf xs = 0
        · rw [if_pos h, List.length_map]
        · rw [if_neg h, List.length_map]
    | sum =>
        show (if xs.sum = 0 then xs.map (fun _ => 1 / (xs.length : ℚ))
          else xs.map (fun y => y / xs.sum)).length = _
        by_cases h : xs.sum = 0
        · rw [if_pos h, List.length_map]
        · rw [if_neg h, List.length_map]
    | rank => simp [normalizeScores]
  · intro xs c h
    cases xs with
    | nil => rfl
    | cons x t =>
        have hx : x = c := h x (List.mem_cons_self x t)
        have ht : ∀ y ∈ t, y = c := fun y hy => h y (List.mem_cons_of_mem _ hy)
        have hlo : t.foldl min x = c := foldl_min_const ht hx
        have hhi : t.foldl max x = c := foldl_max_const ht hx
        show (if t.foldl max x = t.foldl min x
          then (x :: t).map (fun _ => (1 : ℚ)/2)
          else (x :: t).map (fun y =>
            (y - t.foldl min x) / (t.foldl max x - t.foldl min x))) = _
        rw [if_pos (by rw [hlo, hhi])]
  · intro xs c h
    have hv := varOf_const h
    refine ⟨hv, ?_⟩
    show (if varOf xs = 0 then xs.map (fun _ => 0)
      else xs.map (fun y => (y - meanOf xs) / Rat.sqrt (varOf xs))) = _
    rw [if_pos hv]
  · intro xs hs
    show (if xs.sum = 0 then xs.map (fun _ => 1 / (xs.length : ℚ))
      else xs.map (fun y => y / xs.sum)) = _
    rw [if_pos hs]

/-- Witness for C6 at concrete constant and zero-sum lists. -/
theorem normalization_total_and_degenerate_witness :
    (normalizeScores Norm.rank [(5 : ℚ)]).length = [(5 : ℚ)].length ∧
    normalizeScores Norm.minmax [(3 : ℚ), 3] = [(1 : ℚ)/2, 1/2] ∧
    normalizeScores Norm.zscore [(3 : ℚ), 3] = [(0 : ℚ), 0] ∧
    normalizeScores Norm.sum [(1 : ℚ), -1] = [(1 : ℚ)/2, 1/2] :=
  ⟨normalization_total_and_degenerate.1 Norm.rank [(5 : ℚ)],
   normalization_total_and_degenerate.2.1 [(3 : ℚ), 3] 3
     (by intro y hy; simpa using hy),
   (normalization_total_and_degenerate.2.2.1 [(3 : ℚ), 3] 3
     (by intro y hy; simpa using hy)).2,
   normalization_total_and_degenerate.2.2.2 [(1 : ℚ), -1] (by norm_num)⟩

/-- C1: for every pair of valid ranked lists, `rrf` assigns each identifier
in the fused result a score equal to the sum, over the input lists
containing it, of `1/(k + rank)` with 0-based positional rank (the
spec-side formula `specRrfScore`); and on the spec's worked example with
`k = 60`, "d2" is ranked strictly above both "d1" and "d3". -/
theorem rrf_score_formula_and_example :
    (∀ (k : Int) (a b : List ScoredItem), 1 ≤ k →
      (a.map Prod.fst).Nodup → (b.map Prod.fst).Nodup →
      ∀ res, rrf a b k Option.none = Except.ok res →
      ∀ p ∈ res, p.2 = specRrfScore k [a, b] p.1) ∧
    Except.map (List.map Prod.fst) (rrf exampleA exampleB 60 Option.none)
      = Except.ok ["d2", "d1", "d3"] := by
  constructor
  · intro k a b hk ha hb res hres p hp
    replace hres : fuseAlg (Alg.rrf k) [a, b] Option.none = Except.ok res := hres
    obtain ⟨hv, hres2⟩ := fuseAlg_eq_ok hres
    subst hres2
    obtain ⟨hin, hscore⟩ := mem_assemble hp
    rw [hscore]
    have hcanon : [a, b].map canonList = [a, b] := by
      rw [List.map_cons, List.map_cons, List.map_nil,
        canonList_eq_self ha, canonList_eq_self hb]
    rw [hcanon]
    show termSum (fun _ r _ => 1 / ((k : ℚ) + r)) [a, b] p.1 = _
    exact rrfTermSum_eq_spec k [a, b] p.1
  · simp only [rrf, fuseAlg, algValidate, exampleA, exampleB, allKeys,
      canonList, canonAux, dedupKeys, assemble, algScore, sumScore, termSum,
      exTermF, lookupRank, List.insertionSort, List.orderedInsert, fuseRel,
      Except.map, List.flatMap, List.map, List.filterMap]
    simp
    norm_num [List.orderedInsert, fuseRel]

/-- Witness for C1: the general formula clause applied on the worked
example at the identifier "d2". -/
theorem rrf_score_formula_and_example_witness :
    (1 : ℚ)/61 + 1/60 = specRrfScore 60 [exampleA, exampleB] "d2" := by
  refine rrf_score_formula_and_example.1 60 exampleA exampleB (by norm_num)
    (by decide) (by decide)
    [("d2", (1 : ℚ)/61 + 1/60), ("d1", (1 : ℚ)/60 + 1/62),
      ("d3", (1 : ℚ)/62 + 1/61)] ?_
    ("d2", (1 : ℚ)/61 + 1/60) (List.mem_cons_self _ _)
  simp only [rrf, fuseAlg, algValidate, exampleA, exampleB, allKeys,
    canonList, canonAux, dedupKeys, assemble, algScore, sumScore, termSum,
    exTermF, lookupRank, List.insertionSort, List.orderedInsert, fuseRel,
    List.flatMap, List.map, List.filterMap]
  simp
  norm_num [List.orderedInsert, fuseRel]

/-- C5: for each explain variant (RRF, CombSUM, CombMNZ, DBSF) and every
valid input, each fused item carries one explanation entry per input list
that contained it — lists not containing it are omitted, never listed with
a zero entry — and the item's per-list explained contributions sum to its
fused score (exactly, in the rational model). -/
theorem explain_contributions_roundtrip :
    ∀ (a : ExplainAlg) (lists : List (List ScoredItem)) (rids : List String)
      (topk : Option Nat) (res : List FusedItemEx),
      explainFuse a lists rids topk = Except.ok res →
      ∀ e ∈ res, ((e.explanation.map Contribution.contrib).sum = e.score ∧
        e.explanation.length = hitCount (lists.map canonList) e.id) := by
  intro a lists rids topk res h e he
  unfold explainFuse at h
  cases hv : exValidate a rids lists with
  | some m =>
      rw [hv] at h
      exact Except.noConfusion h
  | none =>
      rw [hv] at h
      injection h with h2
      subst h2
      rcases List.mem_map.mp he with ⟨ip, hip, rfl⟩
      have hbase : ip.2 ∈ assemble (allKeys (lists.map canonList))
          (sumScore a (lists.map canonList)) topk := by
        have hmm := List.mem_map_of_mem Prod.snd hip
        rwa [List.enum_map_snd] at hmm
      obtain ⟨hkey, hsc⟩ := mem_assemble hbase
      have hlen : rids.length = (lists.map canonList).length := by
        rw [List.length_map]
        exact exValidate_none_len hv
      constructor
      · show ((explainContribs a (lists.map canonList) rids ip.2.1).map
          Contribution.contrib).sum = ip.2.2
        rw [explainContribs_sum a hlen]
        exact hsc.symm
      · show (explainContribs a (lists.map canonList) rids ip.2.1).length = _
        exact explainContribs_length a hlen _

/-- Witness for C5 on a concrete CombSUM explain call. -/
theorem explain_contributions_roundtrip_witness :
    ((([⟨"R", 0, (1 : ℚ), (1 : ℚ)⟩] : List Contribution).map
      Contribution.contrib).sum = (1 : ℚ)) ∧
    ([(⟨"R", 0, (1 : ℚ), (1 : ℚ)⟩ : Contribution)]).length
      = hitCount ([[(("a" : String), (1 : ℚ))]].map canonList) "a" := by
  refine explain_contributions_roundtrip ExplainAlg.combsum
    [[("a", (1 : ℚ))]] ["R"] Option.none
    [⟨"a", 1, 0, [⟨"R", 0, 1, 1⟩]⟩] ?_
    ⟨"a", 1, 0, [⟨"R", 0, 1, 1⟩]⟩ (List.mem_cons_self _ _)
  simp only [explainFuse, exValidate, ridCheck, explainContribs, sumScore,
    termSum, exTermF, allKeys, canonList, canonAux, dedupKeys, assemble,
    lookupRank, fuseRel, List.insertionSort, List.orderedInsert,
    List.flatMap, List.map, List.filterMap, List.zip, List.enum]
  simp

end RankFusion
